import Mathlib

/-!
Shallow embedding of the semantic name-resolution engine of the repository
(`skin_name_manager.py`, class `SkinNameManager`), together with proofs of the
behavioural claims about it.

Modelling conventions:
* The sentence-transformer embedding model is external to the repository; it is
  modelled as an abstract function `emb : String → List ℚ` producing the
  (already unit-normalized, as `normalize_embeddings=True` requests) vector of a
  text.  Similarity scores are exact rationals instead of 32-bit floats.
* Python dicts are modelled as association lists with first-match lookup
  (`List.lookup`), matching dict semantics when keys are unique.
* Mutable attributes of the Python object (`self._embeddings`,
  `self._vector_index`), the persisted cache file, and the number of calls to
  `model.encode` are threaded through an explicit `ManagerState`.
* `np.argsort` ties and faiss ties are determinized to first-index order.
-/

namespace Buuff

/-- Python `d.get(k, default)` over an association-list dict. -/
def dictGet (d : List (String × String)) (k : String) (dflt : String) : String :=
  (d.lookup k).getD dflt

/-- Python `d.setdefault(k, v)`: insert `(k, v)` only when `k` is not yet a key. -/
def dictSetdefault (d : List (String × String)) (k v : String) :
    List (String × String) :=
  if (d.lookup k).isSome then d else d ++ [(k, v)]

/-- Parsed content of the name-mapping artifact (`skin_name_mapping.json`),
as `_load_alias_mapping` (lines 84-112) distinguishes the cases: the file may
be absent, unreadable or not a JSON dict (`malformed`, which also covers the
non-dict top level where `alias_map` stays empty), a dict with an
`alias_to_en` sub-dict, or a flat alias dict. -/
inductive MappingArtifact where
  | missing : MappingArtifact
  | malformed : MappingArtifact
  | wrapped (entries : List (String × String)) : MappingArtifact
  | flat (entries : List (String × String)) : MappingArtifact
deriving DecidableEq

/-- The dict read from the artifact before merging (lines 85-104): empty on a
missing or malformed file, otherwise the (stringified) entries. -/
def artifactEntries : MappingArtifact → List (String × String)
  | .missing => []
  | .malformed => []
  | .wrapped es => es
  | .flat es => es

/-- `SkinNameManager._load_alias_mapping` (lines 84-112): read the artifact;
when the resulting dict is empty, fall back to the identity map over the
catalog, else inject a self-mapping for every catalog name not already a key
(`setdefault`). -/
def load_alias_mapping (skin_names : List String) (art : MappingArtifact) :
    List (String × String) :=
  let alias_map := artifactEntries art
  if alias_map = [] then
    skin_names.map (fun n => (n, n))
  else
    skin_names.foldl (fun d n => dictSetdefault d n n) alias_map

/-- Dot product of two rational vectors (`np.dot` on equal-length rows;
`zip` truncates to the shorter operand). -/
def dotQ (u v : List ℚ) : ℚ :=
  (List.zip u v).foldl (fun a p => a + p.1 * p.2) 0

/-- The similarity of every catalog row against a query vector, paired with
its row index (`similarities = np.dot(self._embeddings, query_embedding[0])`,
line 221). -/
def scored (mat : List (List ℚ)) (q : List ℚ) : List (Nat × ℚ) :=
  (List.range mat.length).map (fun i => (i, dotQ (mat.getD i []) q))

/-- Insert a pair into a list sorted by descending score, before the first
strictly smaller score, so equal scores keep the existing order of the tail. -/
def insertDesc (x : Nat × ℚ) : List (Nat × ℚ) → List (Nat × ℚ)
  | [] => [x]
  | y :: ys => if y.2 ≤ x.2 then x :: y :: ys else y :: insertDesc x ys

/-- Stable sort by descending score: the model of
`np.argsort(-similarities)` (line 222), determinizing equal scores to
first-index order. -/
def sortDesc : List (Nat × ℚ) → List (Nat × ℚ)
  | [] => []
  | x :: xs => insertDesc x (sortDesc xs)

/-- NumPy fallback search (lines 218-223): sort all `(index, score)` pairs by
descending score and keep the first `top_k`. -/
def npSearch (mat : List (List ℚ)) (q : List ℚ) (k : Nat) : List (Nat × ℚ) :=
  (sortDesc (scored mat q)).take k

/-- Select the first pair attaining the maximal score, returning it with the
remaining pairs. -/
def selectMax : List (Nat × ℚ) → Option ((Nat × ℚ) × List (Nat × ℚ))
  | [] => none
  | x :: xs =>
    match selectMax xs with
    | none => some (x, [])
    | some (m, rest) => if x.2 < m.2 then some (m, x :: rest) else some (x, xs)

/-- Exact top-k retrieval by repeated selection of the maximum. -/
def topK : Nat → List (Nat × ℚ) → List (Nat × ℚ)
  | 0, _ => []
  | k + 1, l =>
    match selectMax l with
    | none => []
    | some (m, rest) => m :: topK k rest

/-- Modelled from the spec: the accelerated path, `faiss.IndexFlatIP.search`
over the stored matrix (lines 214-216).  The faiss library is external to the
repository; the spec describes the index as an exact inner-product top-k
retrieval with ranking semantics identical to the brute-force path, so it is
modelled as exact top-k selection by descending inner product (ties to the
first index; padding entries for `k` beyond the row count are dropped). -/
def faissSearch (mat : List (List ℚ)) (q : List ℚ) (k : Nat) :
    List (Nat × ℚ) :=
  topK k (scored mat q)

/-- The first pair attaining the maximal score of a list (specification of the
top-1 result both search strategies must produce). -/
def firstMax? : List (Nat × ℚ) → Option (Nat × ℚ)
  | [] => none
  | x :: xs =>
    match firstMax? xs with
    | none => some x
    | some m => if x.2 < m.2 then some m else some x

/-- Content of the persisted embedding-cache artifact (`skin_embeddings.npy`):
absent, unreadable (`np.load` raises), or a stored array with its number of
dimensions and, when two-dimensional, its rows. -/
inductive CacheArtifact where
  | missing : CacheArtifact
  | corrupt : CacheArtifact
  | stored (ndim : Nat) (mat : List (List ℚ)) : CacheArtifact
deriving DecidableEq

/-- The cache-validation step of `_ensure_embeddings` (lines 136-151): the
artifact is adopted only when it loads, is two-dimensional and its row count
equals the catalog length; any other outcome (missing file, raised exception,
wrong `ndim`, row mismatch) yields nothing and falls through to recomputation. -/
def cacheAccept (skin_names : List String) : CacheArtifact → Option (List (List ℚ))
  | .missing => none
  | .corrupt => none
  | .stored ndim mat =>
    if ndim = 2 ∧ mat.length = skin_names.length then some mat else none

/-- The mutable context of a `SkinNameManager` object together with the
filesystem cache and an instrumentation counter for `model.encode` calls. -/
structure ManagerState where
  skin_names : List String
  alias_to_canonical : List (String × String)
  embeddings : Option (List (List ℚ))
  vector_index : Option (List (List ℚ))
  cache : CacheArtifact
  model_invocations : Nat
deriving DecidableEq

/-- States reachable by the program: whenever an in-memory matrix or a built
index is present, its row count equals the catalog length (both are only ever
set by `_ensure_embeddings` / `_build_vector_index`, which enforce this). -/
def WellFormed (st : ManagerState) : Prop :=
  (∀ M, st.embeddings = some M → M.length = st.skin_names.length) ∧
  (∀ M, st.vector_index = some M → M.length = st.skin_names.length)

/-- `SkinNameManager._ensure_embeddings` (lines 124-168): keep the in-memory
matrix unless a rebuild is forced; else adopt a valid persisted cache; else
encode the whole catalog with the model, persist and adopt the result. -/
def ensure_embeddings (emb : String → List ℚ) (force : Bool)
    (st : ManagerState) : ManagerState :=
  if st.skin_names = [] then
    { st with embeddings := none }
  else if st.embeddings.isSome ∧ force = false then
    st
  else
    match (if force = false then cacheAccept st.skin_names st.cache else none) with
    | some M => { st with embeddings := some M }
    | none =>
      let M := st.skin_names.map emb
      { st with
          embeddings := some M
          cache := .stored 2 M
          model_invocations := st.model_invocations + 1 }

/-- `SkinNameManager._build_vector_index` (lines 170-195): ensure the matrix,
then build a faiss inner-product index over it when faiss is available
(modelled as a snapshot of the matrix), else leave the index unset. -/
def build_vector_index (emb : String → List ℚ) (faiss_ok : Bool) (force : Bool)
    (st : ManagerState) : ManagerState :=
  if st.skin_names = [] then
    { st with vector_index := none, embeddings := none }
  else
    let st1 := ensure_embeddings emb force st
    match st1.embeddings with
    | none => { st1 with vector_index := none }
    | some M => if faiss_ok then { st1 with vector_index := some M } else { st1 with vector_index := none }

/-- The state-preparation steps of `_vector_search` (lines 201-212): ensure
embeddings, encode the query (one model invocation, line 204), and lazily
build the faiss index when faiss is available and none is built yet. -/
def vs_prepare (emb : String → List ℚ) (faiss_ok : Bool) (st : ManagerState) :
    ManagerState :=
  let st1 := ensure_embeddings emb false st
  let st2 := { st1 with model_invocations := st1.model_invocations + 1 }
  if faiss_ok ∧ st2.vector_index = none then
    build_vector_index emb faiss_ok false st2
  else st2

/-- `SkinNameManager._vector_search` (lines 197-223): ensure embeddings, encode
the query (one model invocation), lazily build the faiss index when faiss is
available, then search with the index when present, else brute-force over the
in-memory matrix. -/
def vector_search (emb : String → List ℚ) (faiss_ok : Bool) (text : String)
    (top_k : Nat) (st : ManagerState) : List (Nat × ℚ) × ManagerState :=
  if st.skin_names = [] then
    ([], st)
  else
    let st3 := vs_prepare emb faiss_ok st
    match st3.vector_index with
    | some M => (faissSearch M (emb text) top_k, st3)
    | none =>
      match st3.embeddings with
      | none => ([], st3)
      | some M => (npSearch M (emb text) top_k, st3)

/-- Python `str.lower()`: character-wise lowercasing. -/
def pyLower (s : String) : String := ⟨s.data.map Char.toLower⟩

/-- Python `str.strip()`: drop leading and trailing whitespace. -/
def pyStrip (s : String) : String :=
  ⟨((s.data.dropWhile Char.isWhitespace).reverse.dropWhile Char.isWhitespace).reverse⟩

/-- The ordered list of query variants built by `find_best_match`
(lines 246-250): the lowercased stripped query when non-empty, then the
stripped query itself when not already present. -/
def candidates (normalized_query : String) : List String :=
  let nql := pyLower normalized_query
  let c1 := if nql = "" then [] else [nql]
  if normalized_query ∈ c1 then c1 else c1 ++ [normalized_query]

/-- The running best of the variant loop of `find_best_match` (lines 252-254):
`best_idx`, `best_score` (initially `-1.0`) and `used_query`. -/
structure LoopAcc where
  best_idx : Option Nat
  best_score : ℚ
  used_query : Option String
deriving DecidableEq

/-- The variant loop of `find_best_match` (lines 256-267): search each variant
with `top_k = 3`, keep the strictly best top-1 candidate seen so far, and stop
as soon as a top-1 score meets the threshold. -/
def searchLoop (emb : String → List ℚ) (faiss_ok : Bool) (thr : ℚ) :
    List String → LoopAcc → ManagerState → LoopAcc × ManagerState
  | [], acc, st => (acc, st)
  | text :: rest, acc, st =>
    match vector_search emb faiss_ok text 3 st with
    | ([], st1) => searchLoop emb faiss_ok thr rest acc st1
    | ((idx, score) :: _, st1) =>
      let acc1 := if acc.best_score < score then
                    ⟨some idx, score, some text⟩
                  else acc
      if thr ≤ score then (acc1, st1)
      else searchLoop emb faiss_ok thr rest acc1 st1

/-- `SkinNameManager.find_best_match` (lines 225-288), returning the result
together with the final object state. -/
def find_best_match (emb : String → List ℚ) (faiss_ok : Bool)
    (user_query : String) (score_cutoff : ℤ) (st : ManagerState) :
    Option String × ManagerState :=
  if st.skin_names = [] then
    (none, st)
  else
    let normalized_query := pyStrip user_query
    if normalized_query = "" then
      (none, st)
    else
      let similarity_threshold : ℚ := (score_cutoff : ℚ) / 100
      let cands := candidates normalized_query
      let r := searchLoop emb faiss_ok similarity_threshold cands ⟨none, -1, none⟩ st
      match r.1.best_idx with
      | none => (none, r.2)
      | some i =>
        if r.1.best_score < similarity_threshold then
          (none, r.2)
        else
          let base := r.2.skin_names.getD i ""
          (some (dictGet r.2.alias_to_canonical base base), r.2)

/-- Concrete embedding assigning every text the unit vector `[1]`. -/
def embOne : String → List ℚ := fun _ => [1]

/-- Concrete embedding whose query vector points away from the single catalog
row, producing a negative cosine similarity. -/
def embNeg : String → List ℚ := fun _ => [-(1/2 : ℚ)]

/-- Concrete embedding giving the lowercased variant a weak match on row 0 and
every other text a strong match on row 1. -/
def embSplit : String → List ℚ := fun s => if s = "ab" then [1/2, 0] else [0, 1]

/-- One-entry manager whose catalog name "A" is aliased to canonical "B", with
the in-memory matrix `[[1]]` already present. -/
def stW : ManagerState := ⟨["A"], [("A", "B")], some [[1]], none, .missing, 0⟩

/-- Two-entry manager with the identity alias map and orthogonal unit rows. -/
def stTwo : ManagerState :=
  ⟨["A", "B"], [("A", "A"), ("B", "B")], some [[1, 0], [0, 1]], none, .missing, 0⟩

/-- Manager with no in-memory matrix but a valid two-dimensional persisted
cache of matching row count. -/
def stC7 : ManagerState := ⟨["A"], [("A", "A")], none, none, .stored 2 [[5]], 0⟩

/-- Manager with an empty catalog. -/
def stE : ManagerState := ⟨[], [], none, none, .missing, 0⟩

/-! ### Frame and preservation lemmas -/

lemma ensure_skin_names (emb : String → List ℚ) (f : Bool) (st : ManagerState) :
    (ensure_embeddings emb f st).skin_names = st.skin_names := by
  unfold ensure_embeddings
  split
  · rfl
  split
  · rfl
  split <;> rfl

lemma ensure_alias (emb : String → List ℚ) (f : Bool) (st : ManagerState) :
    (ensure_embeddings emb f st).alias_to_canonical = st.alias_to_canonical := by
  unfold ensure_embeddings
  split
  · rfl
  split
  · rfl
  split <;> rfl

lemma ensure_vector_index (emb : String → List ℚ) (f : Bool) (st : ManagerState) :
    (ensure_embeddings emb f st).vector_index = st.vector_index := by
  unfold ensure_embeddings
  split
  · rfl
  split
  · rfl
  split <;> rfl

lemma build_skin_names (emb : String → List ℚ) (fk f : Bool) (st : ManagerState) :
    (build_vector_index emb fk f st).skin_names = st.skin_names := by
  unfold build_vector_index
  split
  · rfl
  · dsimp only
    split <;> (try split) <;> simp [ensure_skin_names]

lemma build_alias (emb : String → List ℚ) (fk f : Bool) (st : ManagerState) :
    (build_vector_index emb fk f st).alias_to_canonical = st.alias_to_canonical := by
  unfold build_vector_index
  split
  · rfl
  · dsimp only
    split <;> (try split) <;> simp [ensure_alias]

lemma vs_prepare_skin_names (emb : String → List ℚ) (fk : Bool)
    (st : ManagerState) :
    (vs_prepare emb fk st).skin_names = st.skin_names := by
  unfold vs_prepare
  dsimp only
  split <;> simp [build_skin_names, ensure_skin_names]

lemma vs_prepare_alias (emb : String → List ℚ) (fk : Bool) (st : ManagerState) :
    (vs_prepare emb fk st).alias_to_canonical = st.alias_to_canonical := by
  unfold vs_prepare
  dsimp only
  split <;> simp [build_alias, ensure_alias]

lemma vs_skin_names (emb : String → List ℚ) (fk : Bool) (t : String) (k : Nat)
    (st : ManagerState) :
    (vector_search emb fk t k st).2.skin_names = st.skin_names := by
  unfold vector_search
  split
  · rfl
  · dsimp only
    split <;> (try split) <;> simp [vs_prepare_skin_names]

lemma vs_alias (emb : String → List ℚ) (fk : Bool) (t : String) (k : Nat)
    (st : ManagerState) :
    (vector_search emb fk t k st).2.alias_to_canonical = st.alias_to_canonical := by
  unfold vector_search
  split
  · rfl
  · dsimp only
    split <;> (try split) <;> simp [vs_prepare_alias]

lemma searchLoop_skin_names (emb : String → List ℚ) (fk : Bool) (thr : ℚ)
    (cands : List String) (acc : LoopAcc) (st : ManagerState) :
    (searchLoop emb fk thr cands acc st).2.skin_names = st.skin_names := by
  induction cands generalizing acc st with
  | nil => rfl
  | cons t rest ih =>
    rw [searchLoop]
    split <;> rename_i st1 heq
    case h_1 =>
      rw [ih]
      have := vs_skin_names emb fk t 3 st
      rw [heq] at this
      exact this
    case h_2 idx score tail =>
      have := vs_skin_names emb fk t 3 st
      rw [heq] at this
      dsimp only
      split
      · exact this
      · rw [ih]
        exact this

lemma searchLoop_alias (emb : String → List ℚ) (fk : Bool) (thr : ℚ)
    (cands : List String) (acc : LoopAcc) (st : ManagerState) :
    (searchLoop emb fk thr cands acc st).2.alias_to_canonical = st.alias_to_canonical := by
  induction cands generalizing acc st with
  | nil => rfl
  | cons t rest ih =>
    rw [searchLoop]
    split <;> rename_i st1 heq
    case h_1 =>
      rw [ih]
      have := vs_alias emb fk t 3 st
      rw [heq] at this
      exact this
    case h_2 idx score tail =>
      have := vs_alias emb fk t 3 st
      rw [heq] at this
      dsimp only
      split
      · exact this
      · rw [ih]
        exact this


/-! ### Well-formedness preservation -/

lemma cacheAccept_length (names : List String) (c : CacheArtifact)
    (M : List (List ℚ)) (h : cacheAccept names c = some M) :
    M.length = names.length := by
  cases c with
  | missing => simp [cacheAccept] at h
  | corrupt => simp [cacheAccept] at h
  | stored nd mat =>
    simp only [cacheAccept] at h
    split at h
    · rename_i hc
      cases h
      exact hc.2
    · cases h

lemma ensure_wf (emb : String → List ℚ) (f : Bool) (st : ManagerState)
    (h : WellFormed st) : WellFormed (ensure_embeddings emb f st) := by
  obtain ⟨he, hi⟩ := h
  unfold ensure_embeddings
  split
  · exact ⟨fun M hM => Option.noConfusion hM, fun M hM => hi M hM⟩
  · split
    · exact ⟨he, hi⟩
    · split
      · rename_i M hM
        refine ⟨fun M2 hM2 => ?_, fun M2 hM2 => hi M2 hM2⟩
        cases hM2
        split at hM
        · exact cacheAccept_length _ _ _ hM
        · cases hM
      · refine ⟨fun M2 hM2 => ?_, fun M2 hM2 => hi M2 hM2⟩
        cases hM2
        exact List.length_map _ _

lemma build_wf (emb : String → List ℚ) (fk f : Bool) (st : ManagerState)
    (h : WellFormed st) : WellFormed (build_vector_index emb fk f st) := by
  unfold build_vector_index
  split
  · exact ⟨fun M hM => Option.noConfusion hM, fun M hM => Option.noConfusion hM⟩
  · dsimp only
    have h1 := ensure_wf emb f st h
    split
    · exact ⟨h1.1, fun M hM => Option.noConfusion hM⟩
    · rename_i M hM
      split
      · refine ⟨h1.1, fun M2 hM2 => ?_⟩
        cases hM2
        exact h1.1 _ hM
      · exact ⟨h1.1, fun M hM => Option.noConfusion hM⟩

lemma vs_prepare_wf (emb : String → List ℚ) (fk : Bool) (st : ManagerState)
    (h : WellFormed st) : WellFormed (vs_prepare emb fk st) := by
  unfold vs_prepare
  dsimp only
  have h1 := ensure_wf emb false st h
  split
  · exact build_wf emb fk false _ ⟨h1.1, h1.2⟩
  · exact ⟨h1.1, h1.2⟩

/-! ### Index bounds of the search results -/

lemma mem_scored (mat : List (List ℚ)) (q : List ℚ) (p : Nat × ℚ)
    (h : p ∈ scored mat q) : p.1 < mat.length := by
  unfold scored at h
  obtain ⟨i, hi, rfl⟩ := List.mem_map.mp h
  simpa using List.mem_range.mp hi

lemma mem_insertDesc (x p : Nat × ℚ) (l : List (Nat × ℚ))
    (h : p ∈ insertDesc x l) : p = x ∨ p ∈ l := by
  induction l with
  | nil => simp [insertDesc] at h; exact Or.inl h
  | cons y ys ih =>
    unfold insertDesc at h
    split at h
    · simpa using h
    · rcases List.mem_cons.mp h with h | h
      · right
        simp [h]
      · rcases ih h with h | h
        · exact Or.inl h
        · right
          simp [h]

lemma mem_sortDesc (p : Nat × ℚ) (l : List (Nat × ℚ)) (h : p ∈ sortDesc l) :
    p ∈ l := by
  induction l with
  | nil => exact absurd h (by simp [sortDesc])
  | cons x xs ih =>
    unfold sortDesc at h
    rcases mem_insertDesc x p _ h with h | h
    · simp [h]
    · simp [ih h]

lemma npSearch_mem (mat : List (List ℚ)) (q : List ℚ) (k : Nat) (p : Nat × ℚ)
    (h : p ∈ npSearch mat q k) : p.1 < mat.length :=
  mem_scored mat q p (mem_sortDesc p _ (List.mem_of_mem_take h))

lemma selectMax_mem (l : List (Nat × ℚ)) (m : Nat × ℚ) (rest : List (Nat × ℚ))
    (h : selectMax l = some (m, rest)) :
    m ∈ l ∧ ∀ y ∈ rest, y ∈ l := by
  induction l generalizing m rest with
  | nil => cases h
  | cons x xs ih =>
    unfold selectMax at h
    split at h
    · cases h
      exact ⟨by simp, by simp⟩
    · rename_i m2 rest2 hsel
      split at h <;> cases h
      · obtain ⟨hm, hr⟩ := ih _ _ hsel
        refine ⟨List.mem_cons_of_mem _ hm, fun y hy => ?_⟩
        rcases List.mem_cons.mp hy with h | h
        · simp [h]
        · exact List.mem_cons_of_mem _ (hr y h)
      · exact ⟨by simp, fun y hy => List.mem_cons_of_mem _ hy⟩

lemma topK_subset (k : Nat) (l : List (Nat × ℚ)) (p : Nat × ℚ)
    (h : p ∈ topK k l) : p ∈ l := by
  induction k generalizing l with
  | zero => cases h
  | succ k ih =>
    unfold topK at h
    split at h
    · cases h
    · rename_i m rest hsel
      obtain ⟨hm, hr⟩ := selectMax_mem l m rest hsel
      rcases List.mem_cons.mp h with h | h
      · exact h ▸ hm
      · exact hr p (ih rest h)

lemma faissSearch_mem (mat : List (List ℚ)) (q : List ℚ) (k : Nat) (p : Nat × ℚ)
    (h : p ∈ faissSearch mat q k) : p.1 < mat.length :=
  mem_scored mat q p (topK_subset k _ p h)

lemma vs_mem (emb : String → List ℚ) (fk : Bool) (t : String) (k : Nat)
    (st : ManagerState) (hwf : WellFormed st) (p : Nat × ℚ)
    (h : p ∈ (vector_search emb fk t k st).1) :
    p.1 < st.skin_names.length := by
  unfold vector_search at h
  split at h
  · cases h
  · dsimp only at h
    have hwf3 := vs_prepare_wf emb fk st hwf
    have hnames := vs_prepare_skin_names emb fk st
    split at h
    · rename_i M hM
      have := faissSearch_mem M (emb t) k p h
      rw [hwf3.2 M hM, hnames] at this
      exact this
    · split at h
      · cases h
      · rename_i M hM
        have := npSearch_mem M (emb t) k p h
        rw [hwf3.1 M hM, hnames] at this
        exact this


/-! ### Equivalence of the two search strategies (top-1, sortedness, length) -/

lemma selectMax_fst (l : List (Nat × ℚ)) :
    (selectMax l).map Prod.fst = firstMax? l := by
  induction l with
  | nil => rfl
  | cons x xs ih =>
    simp only [selectMax, firstMax?, ← ih]
    cases hsel : selectMax xs with
    | none => rfl
    | some p =>
      obtain ⟨m, rest⟩ := p
      by_cases hlt : x.2 < m.2 <;> simp [hlt]

lemma sortDesc_head (l : List (Nat × ℚ)) :
    (sortDesc l).head? = firstMax? l := by
  induction l with
  | nil => rfl
  | cons x xs ih =>
    unfold sortDesc firstMax?
    cases hs : sortDesc xs with
    | nil =>
      rw [hs] at ih
      simp only [List.head?_nil] at ih
      rw [← ih]
      simp [insertDesc]
    | cons y ys =>
      rw [hs] at ih
      simp only [List.head?_cons] at ih
      rw [← ih]
      unfold insertDesc
      dsimp only
      by_cases hle : y.2 ≤ x.2
      · rw [if_pos hle, if_neg (not_lt.mpr hle)]
        rfl
      · rw [if_neg hle, if_pos (not_le.mp hle)]
        rfl

lemma topK_head (k : Nat) (l : List (Nat × ℚ)) (hk : k ≠ 0) :
    (topK k l).head? = firstMax? l := by
  cases k with
  | zero => exact absurd rfl hk
  | succ k =>
    unfold topK
    cases hsel : selectMax l with
    | none =>
      have hfm : firstMax? l = none := by rw [← selectMax_fst, hsel]; rfl
      rw [hfm]
      rfl
    | some p =>
      obtain ⟨m, rest⟩ := p
      have hfm : firstMax? l = some m := by rw [← selectMax_fst, hsel]; rfl
      rw [hfm]
      rfl

lemma selectMax_eq_none (l : List (Nat × ℚ)) (h : selectMax l = none) :
    l = [] := by
  cases l with
  | nil => rfl
  | cons x xs =>
    exfalso
    unfold selectMax at h
    cases hsel : selectMax xs with
    | none => rw [hsel] at h; cases h
    | some p =>
      obtain ⟨m, rest⟩ := p
      rw [hsel] at h
      dsimp only at h
      split at h <;> cases h

lemma head?_take (k : Nat) (l : List (Nat × ℚ)) (hk : k ≠ 0) :
    (l.take k).head? = l.head? := by
  cases k with
  | zero => exact absurd rfl hk
  | succ k => cases l <;> rfl

lemma np_faiss_head (mat : List (List ℚ)) (q : List ℚ) (k : Nat) :
    (npSearch mat q k).head? = (faissSearch mat q k).head? := by
  cases hk : k with
  | zero => rfl
  | succ k2 =>
    unfold npSearch faissSearch
    rw [head?_take _ _ (Nat.succ_ne_zero k2), sortDesc_head,
      topK_head _ _ (Nat.succ_ne_zero k2)]

lemma selectMax_cover (l : List (Nat × ℚ)) (m : Nat × ℚ) (rest : List (Nat × ℚ))
    (h : selectMax l = some (m, rest)) : ∀ y ∈ l, y = m ∨ y ∈ rest := by
  induction l generalizing m rest with
  | nil => cases h
  | cons x xs ih =>
    intro y hy
    unfold selectMax at h
    cases hsel : selectMax xs with
    | none =>
      rw [hsel] at h
      cases h
      have := selectMax_eq_none xs hsel
      subst this
      simp at hy
      exact Or.inl hy
    | some p =>
      obtain ⟨m2, r2⟩ := p
      rw [hsel] at h
      dsimp only at h
      split at h <;> cases h
      · rcases List.mem_cons.mp hy with hy | hy
        · exact Or.inr (by simp [hy])
        · rcases ih m r2 hsel y hy with hh | hh
          · exact Or.inl hh
          · exact Or.inr (List.mem_cons_of_mem _ hh)
      · rcases List.mem_cons.mp hy with hy | hy
        · exact Or.inl hy
        · exact Or.inr hy

lemma selectMax_ge (l : List (Nat × ℚ)) (m : Nat × ℚ) (rest : List (Nat × ℚ))
    (h : selectMax l = some (m, rest)) : ∀ y ∈ rest, y.2 ≤ m.2 := by
  induction l generalizing m rest with
  | nil => cases h
  | cons x xs ih =>
    intro y hy
    unfold selectMax at h
    cases hsel : selectMax xs with
    | none =>
      rw [hsel] at h
      cases h
      cases hy
    | some p =>
      obtain ⟨m2, r2⟩ := p
      rw [hsel] at h
      dsimp only at h
      split at h <;> cases h <;> rename_i hlt
      · rcases List.mem_cons.mp hy with hy | hy
        · exact hy ▸ le_of_lt hlt
        · exact ih m r2 hsel y hy
      · rcases selectMax_cover xs m2 r2 hsel y hy with hh | hh
        · exact hh ▸ not_lt.mp hlt
        · exact le_trans (ih m2 r2 hsel y hh) (not_lt.mp hlt)

lemma topK_sorted (k : Nat) (l : List (Nat × ℚ)) :
    (topK k l).Pairwise (fun a b => b.2 ≤ a.2) := by
  induction k generalizing l with
  | zero => exact List.Pairwise.nil
  | succ k ih =>
    unfold topK
    cases hsel : selectMax l with
    | none => exact List.Pairwise.nil
    | some p =>
      obtain ⟨m, rest⟩ := p
      refine List.pairwise_cons.mpr ⟨fun y hy => ?_, ih rest⟩
      exact selectMax_ge l m rest hsel y (topK_subset k rest y hy)

lemma insertDesc_sorted (x : Nat × ℚ) (l : List (Nat × ℚ))
    (h : l.Pairwise (fun a b => b.2 ≤ a.2)) :
    (insertDesc x l).Pairwise (fun a b => b.2 ≤ a.2) := by
  induction l with
  | nil => simp [insertDesc]
  | cons y ys ih =>
    obtain ⟨hy, hys⟩ := List.pairwise_cons.mp h
    unfold insertDesc
    split <;> rename_i hle
    · refine List.pairwise_cons.mpr ⟨fun z hz => ?_, h⟩
      rcases List.mem_cons.mp hz with hz | hz
      · exact hz ▸ hle
      · exact le_trans (hy z hz) hle
    · refine List.pairwise_cons.mpr ⟨fun z hz => ?_, ih hys⟩
      rcases mem_insertDesc x z ys hz with hz | hz
      · exact hz ▸ le_of_lt (not_le.mp hle)
      · exact hy z hz

lemma sortDesc_sorted (l : List (Nat × ℚ)) :
    (sortDesc l).Pairwise (fun a b => b.2 ≤ a.2) := by
  induction l with
  | nil => exact List.Pairwise.nil
  | cons x xs ih => exact insertDesc_sorted x (sortDesc xs) ih

lemma topK_length (k : Nat) (l : List (Nat × ℚ)) : (topK k l).length ≤ k := by
  induction k generalizing l with
  | zero => exact le_refl 0
  | succ k ih =>
    unfold topK
    cases hsel : selectMax l with
    | none => exact Nat.zero_le _
    | some p =>
      obtain ⟨m, rest⟩ := p
      simpa using ih rest


/-! ### The variant loop and find_best_match characterization -/

lemma searchLoop_cons (emb : String → List ℚ) (fk : Bool) (thr : ℚ)
    (t : String) (rest : List String) (acc : LoopAcc) (st : ManagerState) :
    searchLoop emb fk thr (t :: rest) acc st =
      match vector_search emb fk t 3 st with
      | ([], st1) => searchLoop emb fk thr rest acc st1
      | ((i, s) :: _, st1) =>
        if thr ≤ s then
          ((if acc.best_score < s then ⟨some i, s, some t⟩ else acc), st1)
        else
          searchLoop emb fk thr rest
            (if acc.best_score < s then ⟨some i, s, some t⟩ else acc) st1 := by
  rw [searchLoop]

lemma fbm_char (emb : String → List ℚ) (fk : Bool) (q : String) (c : ℤ)
    (st : ManagerState) (hn : st.skin_names ≠ []) (hq : pyStrip q ≠ "") :
    (find_best_match emb fk q c st).1 =
      match (searchLoop emb fk ((c : ℚ)/100) (candidates (pyStrip q))
          ⟨none, -1, none⟩ st).1.best_idx with
      | none => none
      | some i =>
        if (searchLoop emb fk ((c : ℚ)/100) (candidates (pyStrip q))
            ⟨none, -1, none⟩ st).1.best_score < (c : ℚ)/100 then none
        else some (dictGet st.alias_to_canonical (st.skin_names.getD i "")
          (st.skin_names.getD i "")) := by
  unfold find_best_match
  rw [if_neg hn]
  rw [if_neg hq]
  dsimp only
  cases hbi : (searchLoop emb fk ((c : ℚ)/100) (candidates (pyStrip q))
      ⟨none, -1, none⟩ st).1.best_idx with
  | none => rfl
  | some i =>
    dsimp only
    split <;> rename_i hlt
    · rfl
    · rw [searchLoop_alias, searchLoop_skin_names]

lemma fbm_state (emb : String → List ℚ) (fk : Bool) (q : String) (c : ℤ)
    (st : ManagerState) :
    (find_best_match emb fk q c st).2 = st ∨
    (find_best_match emb fk q c st).2 =
      (searchLoop emb fk ((c : ℚ)/100) (candidates (pyStrip q))
        ⟨none, -1, none⟩ st).2 := by
  unfold find_best_match
  by_cases hn : st.skin_names = []
  · rw [if_pos hn]
    exact Or.inl rfl
  · rw [if_neg hn]
    by_cases hq : pyStrip q = ""
    · rw [if_pos hq]
      exact Or.inl rfl
    · rw [if_neg hq]
      dsimp only
      cases hbi : (searchLoop emb fk ((c : ℚ)/100) (candidates (pyStrip q))
          ⟨none, -1, none⟩ st).1.best_idx with
      | none => exact Or.inr rfl
      | some i =>
        dsimp only
        by_cases hlt : (searchLoop emb fk ((c : ℚ)/100) (candidates (pyStrip q))
            ⟨none, -1, none⟩ st).1.best_score < (c : ℚ)/100
        · rw [if_pos hlt]
          exact Or.inr rfl
        · rw [if_neg hlt]
          exact Or.inr rfl


lemma vs_wf (emb : String → List ℚ) (fk : Bool) (t : String) (k : Nat)
    (st : ManagerState) (h : WellFormed st) :
    WellFormed ((vector_search emb fk t k st).2) := by
  unfold vector_search
  split
  · exact h
  · dsimp only
    have h3 := vs_prepare_wf emb fk st h
    split
    · exact h3
    · split
      · exact h3
      · exact h3

lemma searchLoop_idx_bound (emb : String → List ℚ) (fk : Bool) (thr : ℚ)
    (cands : List String) :
    ∀ (acc : LoopAcc) (st : ManagerState), WellFormed st →
      (∀ j, acc.best_idx = some j → j < st.skin_names.length) →
      ∀ j, (searchLoop emb fk thr cands acc st).1.best_idx = some j →
        j < st.skin_names.length := by
  induction cands with
  | nil =>
    intro acc st _ hacc j hj
    exact hacc j hj
  | cons t rest ih =>
    intro acc st hwf hacc j hj
    rw [searchLoop_cons] at hj
    rcases hvs : vector_search emb fk t 3 st with ⟨results, st1⟩
    rw [hvs] at hj
    have hwf1 : WellFormed st1 := by
      have := vs_wf emb fk t 3 st hwf
      rw [hvs] at this
      exact this
    have hnames1 : st1.skin_names = st.skin_names := by
      have := vs_skin_names emb fk t 3 st
      rw [hvs] at this
      exact this
    cases results with
    | nil =>
      dsimp only at hj
      have := ih acc st1 hwf1 (by rw [hnames1]; exact hacc) j hj
      rw [hnames1] at this
      exact this
    | cons p r =>
      obtain ⟨i, s⟩ := p
      have hi : i < st.skin_names.length := by
        refine vs_mem emb fk t 3 st hwf (i, s) ?_
        rw [hvs]
        simp
      dsimp only at hj
      split at hj
      · dsimp only at hj
        split at hj
        · cases hj
          exact hi
        · exact hacc j hj
      · split at hj
        · have := ih ⟨some i, s, some t⟩ st1 hwf1
            (fun j hj2 => by cases hj2; rw [hnames1]; exact hi) j hj
          rw [hnames1] at this
          exact this
        · have := ih acc st1 hwf1 (by rw [hnames1]; exact hacc) j hj
          rw [hnames1] at this
          exact this

lemma searchLoop_mono (emb : String → List ℚ) (fk : Bool) (thr1 thr2 : ℚ)
    (h12 : thr1 ≤ thr2) (hthr : -1 < thr1) (cands : List String) :
    ∀ (acc : LoopAcc) (st : ManagerState),
      (acc.best_idx = none → acc.best_score = -1) →
      (searchLoop emb fk thr1 cands acc st).1
          = (searchLoop emb fk thr2 cands acc st).1 ∨
      ((searchLoop emb fk thr1 cands acc st).1.best_idx.isSome ∧
        thr1 ≤ (searchLoop emb fk thr1 cands acc st).1.best_score) := by
  induction cands with
  | nil =>
    intro acc st _
    exact Or.inl rfl
  | cons t rest ih =>
    intro acc st hinv
    rw [searchLoop_cons, searchLoop_cons]
    rcases hvs : vector_search emb fk t 3 st with ⟨results, st1⟩
    cases results with
    | nil => exact ih acc st1 hinv
    | cons p r =>
      obtain ⟨i, s⟩ := p
      dsimp only
      have hinv1 : (if acc.best_score < s then
            (⟨some i, s, some t⟩ : LoopAcc) else acc).best_idx = none →
          (if acc.best_score < s then
            (⟨some i, s, some t⟩ : LoopAcc) else acc).best_score = -1 := by
        split
        · intro h
          cases h
        · exact hinv
      by_cases h1 : thr1 ≤ s
      · rw [if_pos h1]
        right
        constructor
        · split <;> rename_i hup
          · rfl
          · cases hbi : acc.best_idx with
            | some _ => rfl
            | none =>
              exfalso
              have hbs := hinv hbi
              have : s ≤ acc.best_score := not_lt.mp hup
              rw [hbs] at this
              exact absurd (lt_of_lt_of_le hthr h1) (not_lt.mpr this)
        · split <;> rename_i hup
          · exact h1
          · exact le_trans h1 (not_lt.mp hup)
      · have h2 : ¬ thr2 ≤ s := fun hh => h1 (le_trans h12 hh)
        rw [if_neg h1, if_neg h2]
        exact ih _ st1 hinv1


/-! ### Association-list dictionary lemmas for the alias map -/

lemma lookup_append_left (d l : List (String × String)) (k v : String)
    (h : d.lookup k = some v) : (d ++ l).lookup k = some v := by
  induction d with
  | nil => cases h
  | cons p ps ih =>
    obtain ⟨a, b⟩ := p
    simp only [List.lookup] at h ⊢
    cases hk : (k == a) with
    | true => rw [hk] at h; exact h
    | false => rw [hk] at h; exact ih h

lemma lookup_append_right (d l : List (String × String)) (k : String)
    (h : d.lookup k = none) : (d ++ l).lookup k = l.lookup k := by
  induction d with
  | nil => rfl
  | cons p ps ih =>
    obtain ⟨a, b⟩ := p
    simp only [List.lookup] at h ⊢
    cases hk : (k == a) with
    | true => rw [hk] at h; exact Option.noConfusion h
    | false => rw [hk] at h; exact ih h

lemma setdefault_preserve (d : List (String × String)) (a b k v : String)
    (h : d.lookup k = some v) : (dictSetdefault d a b).lookup k = some v := by
  unfold dictSetdefault
  split
  · exact h
  · exact lookup_append_left d [(a, b)] k v h

lemma foldl_setdefault_preserve (names : List String)
    (d : List (String × String)) (k v : String) (h : d.lookup k = some v) :
    (names.foldl (fun d n => dictSetdefault d n n) d).lookup k = some v := by
  induction names generalizing d with
  | nil => exact h
  | cons m ms ih =>
    rw [List.foldl_cons]
    exact ih _ (setdefault_preserve d m m k v h)

lemma setdefault_self_key (d : List (String × String)) (n : String) :
    ((dictSetdefault d n n).lookup n).isSome := by
  unfold dictSetdefault
  split <;> rename_i hk
  · exact hk
  · rw [lookup_append_right d [(n, n)] n (Option.not_isSome_iff_eq_none.mp hk)]
    simp [List.lookup]

lemma foldl_setdefault_key (names : List String) (n : String) :
    ∀ d : List (String × String), n ∈ names →
      ((names.foldl (fun d n => dictSetdefault d n n) d).lookup n).isSome := by
  induction names with
  | nil =>
    intro d hn
    cases hn
  | cons m ms ih =>
    intro d hn
    rw [List.foldl_cons]
    rcases List.mem_cons.mp hn with hn | hn
    · subst hn
      cases hk : (dictSetdefault d n n).lookup n with
      | none =>
        exfalso
        have := setdefault_self_key d n
        rw [hk] at this
        cases this
      | some v =>
        rw [foldl_setdefault_preserve ms _ n v hk]
        rfl
    · exact ih _ hn

lemma foldl_setdefault_absent (names : List String) (n : String) :
    ∀ d : List (String × String), n ∈ names → d.lookup n = none →
      (names.foldl (fun d n => dictSetdefault d n n) d).lookup n = some n := by
  induction names with
  | nil =>
    intro d hn
    cases hn
  | cons m ms ih =>
    intro d hn hnone
    rw [List.foldl_cons]
    by_cases hnm : n = m
    · subst hnm
      have hset : (dictSetdefault d n n).lookup n = some n := by
        have hk : ¬ (d.lookup n).isSome = true := by
          rw [hnone]
          simp
        unfold dictSetdefault
        rw [if_neg hk, lookup_append_right d [(n, n)] n hnone]
        simp [List.lookup]
      exact foldl_setdefault_preserve ms _ n n hset
    · have hn2 : n ∈ ms := by
        rcases List.mem_cons.mp hn with h | h
        · exact absurd h hnm
        · exact h
      refine ih _ hn2 ?_
      unfold dictSetdefault
      split
      · exact hnone
      · rw [lookup_append_right d [(m, m)] n hnone]
        simp only [List.lookup, show (n == m) = false from beq_eq_false_iff_ne.mpr hnm]

lemma identity_map_lookup (names : List String) (n : String) (hn : n ∈ names) :
    (names.map (fun n => (n, n))).lookup n = some n := by
  induction names with
  | nil => cases hn
  | cons m ms ih =>
    rw [List.map_cons, List.lookup]
    by_cases hnm : n = m
    · subst hnm
      simp
    · rw [show (n == m) = false from beq_eq_false_iff_ne.mpr hnm]
      rcases List.mem_cons.mp hn with h | h
      · exact absurd h hnm
      · exact ih h

lemma dictGet_unknown (d : List (String × String)) (x : String)
    (h : d.lookup x = none) : dictGet d x x = x := by
  unfold dictGet
  rw [h]
  rfl


/-! ### Query normalization lemmas -/

lemma pyLower_eq_empty_iff (s : String) : pyLower s = "" ↔ s = "" := by
  obtain ⟨data⟩ := s
  unfold pyLower
  constructor
  · intro h
    have h2 : List.map Char.toLower data = [] := congrArg String.data h
    have h3 : data = [] := List.map_eq_nil_iff.mp h2
    rw [h3]
  · intro h
    have h3 : data = [] := congrArg String.data h
    rw [h3]
    rfl

lemma candidates_eq (nq : String) (h : nq ≠ "") :
    candidates nq =
      if nq = pyLower nq then [pyLower nq] else [pyLower nq, nq] := by
  unfold candidates
  dsimp only
  rw [if_neg fun hl => h ((pyLower_eq_empty_iff nq).mp hl)]
  by_cases hm : nq = pyLower nq
  · rw [if_pos (List.mem_singleton.mpr hm), if_pos hm]
  · rw [if_neg fun hmem => hm (List.mem_singleton.mp hmem), if_neg hm]
    rfl


/-! ### Claim theorems -/

/-- Claim C5: find_best_match returns no-match without invoking the embedding
model whenever the query is empty or whitespace-only (for any catalog) or the
catalog holds zero entries (for any query).  Both guards return a value rather
than raising (the model is total), the state is returned unchanged, and in
particular the model-invocation counter is unchanged. -/
theorem find_best_match_guards_no_model (emb : String → List ℚ) (fk : Bool)
    (q : String) (c : ℤ) (st : ManagerState)
    (h : st.skin_names = [] ∨ pyStrip q = "") :
    (find_best_match emb fk q c st).1 = none ∧
    (find_best_match emb fk q c st).2 = st ∧
    (find_best_match emb fk q c st).2.model_invocations =
      st.model_invocations := by
  have hpair : find_best_match emb fk q c st = (none, st) := by
    unfold find_best_match
    by_cases hn : st.skin_names = []
    · rw [if_pos hn]
    · rcases h with h | h
      · exact absurd h hn
      · rw [if_neg hn, if_pos h]
  rw [hpair]
  exact ⟨rfl, rfl, rfl⟩

/-- Witness for C5 at a whitespace-only query on a non-empty catalog and at an
arbitrary query on the empty catalog. -/
theorem find_best_match_guards_no_model_witness :
    (find_best_match embOne false "   " 50 stW).1 = none ∧
    (find_best_match embOne false "x" 50 stE).1 = none := by
  constructor
  · exact (find_best_match_guards_no_model embOne false "   " 50 stW
      (Or.inr (by decide))).1
  · exact (find_best_match_guards_no_model embOne false "x" 50 stE
      (Or.inl rfl)).1

/-- Claim C8: given the same matrix and query vector, the faiss inner-product
path and the NumPy brute-force path return the same top-1 index and score
(exactly, in the rational model), and both return at most `k` pairs sorted by
descending score. -/
theorem search_paths_equivalent (mat : List (List ℚ)) (q : List ℚ) (k : Nat) :
    (npSearch mat q k).head? = (faissSearch mat q k).head? ∧
    (npSearch mat q k).length ≤ k ∧
    (faissSearch mat q k).length ≤ k ∧
    (npSearch mat q k).Pairwise (fun a b => b.2 ≤ a.2) ∧
    (faissSearch mat q k).Pairwise (fun a b => b.2 ≤ a.2) := by
  refine ⟨np_faiss_head mat q k, ?_, topK_length k _, ?_, topK_sorted k _⟩
  · exact List.length_take_le k _
  · exact List.Pairwise.sublist (List.take_sublist k _) (sortDesc_sorted _)

/-- Claim C10: find_best_match never modifies the catalog list or the alias
map, for every query, cutoff and starting state. -/
theorem find_best_match_preserves_catalog_and_alias (emb : String → List ℚ)
    (fk : Bool) (q : String) (c : ℤ) (st : ManagerState) :
    (find_best_match emb fk q c st).2.skin_names = st.skin_names ∧
    (find_best_match emb fk q c st).2.alias_to_canonical =
      st.alias_to_canonical := by
  rcases fbm_state emb fk q c st with h | h <;> rw [h]
  · exact ⟨rfl, rfl⟩
  · exact ⟨searchLoop_skin_names _ _ _ _ _ _, searchLoop_alias _ _ _ _ _ _⟩

/-- Claim C6: after loading the alias mapping, every catalog name is a key;
explicit artifact entries take priority; catalog names absent from the
artifact are mapped to themselves; a missing or malformed artifact yields the
identity mapping on the catalog; and resolving an input that is not a key
returns the input unchanged. -/
theorem load_alias_mapping_policy (names : List String)
    (art : MappingArtifact) :
    (∀ n ∈ names, ((load_alias_mapping names art).lookup n).isSome) ∧
    (artifactEntries art ≠ [] → ∀ k v,
      (artifactEntries art).lookup k = some v →
      (load_alias_mapping names art).lookup k = some v) ∧
    (∀ n ∈ names, (artifactEntries art).lookup n = none →
      (load_alias_mapping names art).lookup n = some n) ∧
    ((art = .missing ∨ art = .malformed) → ∀ n ∈ names,
      (load_alias_mapping names art).lookup n = some n) ∧
    (∀ (d : List (String × String)) (x : String), d.lookup x = none →
      dictGet d x x = x) := by
  have hload : load_alias_mapping names art =
      if artifactEntries art = [] then names.map (fun n => (n, n))
      else names.foldl (fun d n => dictSetdefault d n n)
        (artifactEntries art) := rfl
  by_cases he : artifactEntries art = []
  · rw [hload, if_pos he]
    refine ⟨?_, ?_, ?_, ?_, ?_⟩
    · intro n hn
      rw [identity_map_lookup names n hn]
      rfl
    · intro hne
      exact absurd he hne
    · intro n hn _
      exact identity_map_lookup names n hn
    · intro _ n hn
      exact identity_map_lookup names n hn
    · exact fun d x h => dictGet_unknown d x h
  · rw [hload, if_neg he]
    refine ⟨?_, ?_, ?_, ?_, ?_⟩
    · intro n hn
      exact foldl_setdefault_key names n _ hn
    · intro _ k v hk
      exact foldl_setdefault_preserve names _ k v hk
    · intro n hn hnone
      exact foldl_setdefault_absent names n _ hn hnone
    · intro hart n hn
      exfalso
      rcases hart with h | h <;> rw [h] at he <;> exact he rfl
    · exact fun d x h => dictGet_unknown d x h

/-- Witness for C6: a flat artifact entry "A" to "B" takes priority, the
uncovered catalog name "C" is self-mapped, and a missing artifact yields the
identity map. -/
theorem load_alias_mapping_policy_witness :
    (load_alias_mapping ["A", "C"] (.flat [("A", "B")])).lookup "A"
      = some "B" ∧
    (load_alias_mapping ["A", "C"] (.flat [("A", "B")])).lookup "C"
      = some "C" ∧
    (load_alias_mapping ["A", "C"] .missing).lookup "A" = some "A" := by
  refine ⟨?_, ?_, ?_⟩
  · exact (load_alias_mapping_policy ["A", "C"] (.flat [("A", "B")])).2.1
      (by decide) "A" "B" (by decide)
  · exact (load_alias_mapping_policy ["A", "C"] (.flat [("A", "B")])).2.2.1
      "C" (by decide) (by decide)
  · exact (load_alias_mapping_policy ["A", "C"] .missing).2.2.2.1
      (Or.inl rfl) "A" (by decide)

/-- Claim C7: the embedding-ensure step returns the in-memory matrix when
present and no rebuild is forced; else adopts the persisted cache exactly when
it is two-dimensional with row count equal to the catalog length; in every
other case (missing, corrupt, wrong dimension, row mismatch, or forced
rebuild) it recomputes all embeddings with the model, persists and adopts
them; and with a non-empty catalog it always ends with a matrix present, so a
bad cache never fails the resolution path. -/
theorem ensure_embeddings_policy (emb : String → List ℚ) (st : ManagerState)
    (force : Bool) (hn : st.skin_names ≠ []) :
    (cacheAccept st.skin_names .missing = none ∧
     cacheAccept st.skin_names .corrupt = none ∧
     ∀ ndim mat, cacheAccept st.skin_names (.stored ndim mat) =
       if ndim = 2 ∧ mat.length = st.skin_names.length
       then some mat else none) ∧
    (st.embeddings.isSome → ensure_embeddings emb false st = st) ∧
    (st.embeddings = none → ∀ M,
      cacheAccept st.skin_names st.cache = some M →
      ensure_embeddings emb false st = { st with embeddings := some M }) ∧
    ((st.embeddings = none ∨ force = true) →
     (force = true ∨ cacheAccept st.skin_names st.cache = none) →
      ensure_embeddings emb force st =
        { st with embeddings := some (st.skin_names.map emb),
                  cache := .stored 2 (st.skin_names.map emb),
                  model_invocations := st.model_invocations + 1 }) ∧
    (ensure_embeddings emb force st).embeddings.isSome := by
  refine ⟨⟨rfl, rfl, fun ndim mat => rfl⟩, ?_, ?_, ?_, ?_⟩
  · intro hs
    unfold ensure_embeddings
    rw [if_neg hn, if_pos ⟨hs, rfl⟩]
  · intro hne M hM
    unfold ensure_embeddings
    rw [if_neg hn, if_neg (fun hc => by rw [hne] at hc; simp at hc)]
    have hsc : (if (false = false) then cacheAccept st.skin_names st.cache
        else none) = some M := by
      rw [if_pos rfl]
      exact hM
    rw [hsc]
  · intro h1 h2
    unfold ensure_embeddings
    cases force with
    | true =>
      rw [if_neg hn, if_neg (fun hc => by simpa using hc.2)]
      have hsc : (if ((true : Bool) = false) then
          cacheAccept st.skin_names st.cache else none) = none := by
        rw [if_neg (by decide)]
      rw [hsc]
    | false =>
      have hne : st.embeddings = none := by
        rcases h1 with h | h
        · exact h
        · cases h
      have hca : cacheAccept st.skin_names st.cache = none := by
        rcases h2 with h | h
        · cases h
        · exact h
      rw [if_neg hn, if_neg (fun hc => by rw [hne] at hc; simp at hc)]
      have hsc : (if ((false : Bool) = false) then
          cacheAccept st.skin_names st.cache else none) = none := by
        rw [if_pos rfl]
        exact hca
      rw [hsc]
  · unfold ensure_embeddings
    rw [if_neg hn]
    by_cases hc : (st.embeddings.isSome ∧ force = false)
    · rw [if_pos hc]
      exact hc.1
    · rw [if_neg hc]
      split
      · rfl
      · rfl

/-- Witness for C7: with no in-memory matrix and a valid two-dimensional
cache of matching row count, the cache is adopted as is. -/
theorem ensure_embeddings_policy_witness :
    ensure_embeddings embOne false stC7 =
      { stC7 with embeddings := some [[5]] } := by
  exact (ensure_embeddings_policy embOne stC7 false (by decide)).2.2.1
    rfl [[5]] rfl


/-- Claim C1: when the variant loop has found a best candidate, a best score
strictly below score_cutoff divided by 100 yields no-match; otherwise the
result is the alias-map resolution of the best candidate catalog name, and in
particular when the alias map sends that name X to canonical Y the result is
Y, not X. -/
theorem find_best_match_threshold_and_alias (emb : String → List ℚ)
    (fk : Bool) (q : String) (c : ℤ) (st : ManagerState) (i : Nat)
    (hn : st.skin_names ≠ []) (hq : pyStrip q ≠ "")
    (_hc0 : 0 ≤ c) (_hc1 : c ≤ 100)
    (hacc : (searchLoop emb fk ((c : ℚ)/100) (candidates (pyStrip q))
        ⟨none, -1, none⟩ st).1.best_idx = some i) :
    ((searchLoop emb fk ((c : ℚ)/100) (candidates (pyStrip q))
        ⟨none, -1, none⟩ st).1.best_score < (c : ℚ)/100 →
      (find_best_match emb fk q c st).1 = none) ∧
    (¬ (searchLoop emb fk ((c : ℚ)/100) (candidates (pyStrip q))
        ⟨none, -1, none⟩ st).1.best_score < (c : ℚ)/100 →
      (find_best_match emb fk q c st).1 =
        some (dictGet st.alias_to_canonical (st.skin_names.getD i "")
          (st.skin_names.getD i ""))) ∧
    (∀ Y, st.alias_to_canonical.lookup (st.skin_names.getD i "") = some Y →
      ¬ (searchLoop emb fk ((c : ℚ)/100) (candidates (pyStrip q))
        ⟨none, -1, none⟩ st).1.best_score < (c : ℚ)/100 →
      (find_best_match emb fk q c st).1 = some Y) := by
  have hchar := fbm_char emb fk q c st hn hq
  rw [hacc] at hchar
  dsimp only at hchar
  refine ⟨fun hlt => ?_, fun hge => ?_, fun Y hY hge => ?_⟩
  · rw [hchar, if_pos hlt]
  · rw [hchar, if_neg hge]
  · rw [hchar, if_neg hge]
    unfold dictGet
    rw [hY]
    rfl

/-- Witness for C1: catalog entry "A" is aliased to "B"; a query matching "A"
above the cutoff returns "B". -/
theorem find_best_match_threshold_and_alias_witness :
    (find_best_match embOne false "A" 50 stW).1 = some "B" := by
  have hacc : (searchLoop embOne false (((50 : ℤ) : ℚ)/100)
      (candidates (pyStrip "A")) ⟨none, -1, none⟩ stW).1.best_idx
        = some 0 := by
    norm_num +decide [searchLoop, vector_search, vs_prepare, ensure_embeddings, cacheAccept,
      build_vector_index, npSearch, faissSearch, scored, sortDesc, insertDesc,
      topK, selectMax, dotQ, candidates, pyLower, pyStrip, dictGet,
      embOne, embNeg, embSplit, stW, stTwo, List.range_succ,
      Prod.mk.injEq, ManagerState.mk.injEq, LoopAcc.mk.injEq]
  have hge : ¬ (searchLoop embOne false (((50 : ℤ) : ℚ)/100)
      (candidates (pyStrip "A")) ⟨none, -1, none⟩ stW).1.best_score
        < ((50 : ℤ) : ℚ)/100 := by
    norm_num +decide [searchLoop, vector_search, vs_prepare, ensure_embeddings, cacheAccept,
      build_vector_index, npSearch, faissSearch, scored, sortDesc, insertDesc,
      topK, selectMax, dotQ, candidates, pyLower, pyStrip, dictGet,
      embOne, embNeg, embSplit, stW, stTwo, List.range_succ,
      Prod.mk.injEq, ManagerState.mk.injEq, LoopAcc.mk.injEq]
  exact (find_best_match_threshold_and_alias embOne false "A" 50 stW 0
    (by decide) (by decide) (by decide) (by decide) hacc).2.2 "B"
    (by decide) hge

/-- Claim C2: the query variants are searched in the exact order lowercased
form first then original stripped form when textually different; an exact
score tie keeps the earlier variant candidate (strict greater-than update);
and the loop stops at the first variant whose top-1 score meets the
threshold, ignoring all later variants. -/
theorem find_best_match_variant_order_early_exit (emb : String → List ℚ)
    (fk : Bool) (q : String) (thr : ℚ) (t : String) (rest : List String)
    (acc : LoopAcc) (st st1 : ManagerState) (i : Nat) (s : ℚ)
    (r : List (Nat × ℚ))
    (hq : pyStrip q ≠ "")
    (hs : vector_search emb fk t 3 st = ((i, s) :: r, st1)) :
    (candidates (pyStrip q) =
      if pyStrip q = pyLower (pyStrip q) then [pyLower (pyStrip q)]
      else [pyLower (pyStrip q), pyStrip q]) ∧
    (s = acc.best_score → ¬ thr ≤ s →
      searchLoop emb fk thr (t :: rest) acc st =
        searchLoop emb fk thr rest acc st1) ∧
    (thr ≤ s →
      searchLoop emb fk thr (t :: rest) acc st =
        ((if acc.best_score < s then ⟨some i, s, some t⟩ else acc), st1)) := by
  refine ⟨candidates_eq (pyStrip q) hq, fun htie hlt => ?_, fun hge => ?_⟩
  · have hni : ¬ acc.best_score < s := by
      rw [htie]
      exact lt_irrefl _
    rw [searchLoop_cons, hs]
    dsimp only
    rw [if_neg hni, if_neg hlt]
  · rw [searchLoop_cons, hs]
    dsimp only
    rw [if_pos hge]

/-- Witness for C2: for the query "A" the variants are exactly the lowercase
form then the original, and a first variant clearing the bar ends the loop at
once, with the unsearched tail ["y"] discarded. -/
theorem find_best_match_variant_order_early_exit_witness :
    candidates (pyStrip "A") = ["a", "A"] ∧
    searchLoop embOne false 0 ("x" :: ["y"]) ⟨none, -1, none⟩ stW =
      (⟨some 0, 1, some "x"⟩, { stW with model_invocations := 1 }) := by
  have hs : vector_search embOne false "x" 3 stW =
      ((0, 1) :: [], { stW with model_invocations := 1 }) := by
    norm_num +decide [searchLoop, vector_search, vs_prepare, ensure_embeddings, cacheAccept,
      build_vector_index, npSearch, faissSearch, scored, sortDesc, insertDesc,
      topK, selectMax, dotQ, candidates, pyLower, pyStrip, dictGet,
      embOne, embNeg, embSplit, stW, stTwo, List.range_succ,
      Prod.mk.injEq, ManagerState.mk.injEq, LoopAcc.mk.injEq]
  have h := find_best_match_variant_order_early_exit embOne false "A" 0 "x"
    ["y"] ⟨none, -1, none⟩ stW ({ stW with model_invocations := 1 }) 0 1 []
    (by decide) hs
  constructor
  · rw [h.1]
    decide
  · rw [h.2.2 (by norm_num)]
    rw [if_pos (by norm_num : (⟨none, -1, none⟩ : LoopAcc).best_score < 1)]

/-- Claim C3: threshold monotonicity.  For fixed catalog, alias map, query and
state, raising the cutoff can never turn a no-match into a match. -/
theorem find_best_match_threshold_monotone (emb : String → List ℚ)
    (fk : Bool) (q : String) (st : ManagerState) (c1 c2 : ℤ)
    (h0 : 0 ≤ c1) (h12 : c1 ≤ c2) (_h100 : c2 ≤ 100)
    (hnone : (find_best_match emb fk q c1 st).1 = none) :
    (find_best_match emb fk q c2 st).1 = none := by
  by_cases hn : st.skin_names = []
  · unfold find_best_match
    rw [if_pos hn]
  · by_cases hq : pyStrip q = ""
    · unfold find_best_match
      rw [if_neg hn, if_pos hq]
    · have hcast : ((c1 : ℚ)) ≤ ((c2 : ℚ)) := Int.cast_le.mpr h12
      have hcast0 : (0 : ℚ) ≤ ((c1 : ℚ)) := by exact_mod_cast h0
      have hc1c2 : ((c1 : ℚ)/100) ≤ ((c2 : ℚ)/100) := by linarith
      have hgt : (-1 : ℚ) < (c1 : ℚ)/100 := by
        have : (0 : ℚ) ≤ (c1 : ℚ)/100 := by positivity
        linarith
      rw [fbm_char emb fk q c1 st hn hq] at hnone
      rw [fbm_char emb fk q c2 st hn hq]
      have key : (searchLoop emb fk ((c1 : ℚ)/100) (candidates (pyStrip q))
            ⟨none, -1, none⟩ st).1.best_idx = none ∨
          (searchLoop emb fk ((c1 : ℚ)/100) (candidates (pyStrip q))
            ⟨none, -1, none⟩ st).1.best_score < (c1 : ℚ)/100 := by
        cases hbi : (searchLoop emb fk ((c1 : ℚ)/100) (candidates (pyStrip q))
            ⟨none, -1, none⟩ st).1.best_idx with
        | none => exact Or.inl rfl
        | some i =>
          rw [hbi] at hnone
          dsimp only at hnone
          by_cases hlt : (searchLoop emb fk ((c1 : ℚ)/100)
              (candidates (pyStrip q)) ⟨none, -1, none⟩ st).1.best_score
                < (c1 : ℚ)/100
          · exact Or.inr hlt
          · rw [if_neg hlt] at hnone
            cases hnone
      rcases searchLoop_mono emb fk ((c1 : ℚ)/100) ((c2 : ℚ)/100) hc1c2 hgt
          (candidates (pyStrip q)) ⟨none, -1, none⟩ st (fun _ => rfl) with
        heq | hhit
      · rw [← heq]
        rcases key with hbi | hlt
        · rw [hbi]
        · cases hbi : (searchLoop emb fk ((c1 : ℚ)/100)
              (candidates (pyStrip q)) ⟨none, -1, none⟩ st).1.best_idx with
          | none => rfl
          | some i =>
            dsimp only
            rw [if_pos (lt_of_lt_of_le hlt hc1c2)]
      · exfalso
        rcases key with hbi | hlt
        · rw [hbi] at hhit
          exact Bool.noConfusion hhit.1
        · exact absurd hlt (not_lt.mpr hhit.2)

/-- Witness for C3 at cutoffs 0 and 100 on the empty-catalog manager. -/
theorem find_best_match_threshold_monotone_witness :
    (find_best_match embOne false "x" 100 stE).1 = none :=
  find_best_match_threshold_monotone embOne false "x" stE 0 100
    (by decide) (by decide) (by decide) rfl

/-- Claim C9: whenever find_best_match returns a string, that string is the
alias-map resolution of a catalog name at a valid index. -/
theorem find_best_match_result_in_alias_image (emb : String → List ℚ)
    (fk : Bool) (q : String) (c : ℤ) (st : ManagerState) (s : String)
    (hwf : WellFormed st)
    (h : (find_best_match emb fk q c st).1 = some s) :
    ∃ i, i < st.skin_names.length ∧
      s = dictGet st.alias_to_canonical (st.skin_names.getD i "")
        (st.skin_names.getD i "") := by
  by_cases hn : st.skin_names = []
  · unfold find_best_match at h
    rw [if_pos hn] at h
    cases h
  · by_cases hq : pyStrip q = ""
    · unfold find_best_match at h
      rw [if_neg hn, if_pos hq] at h
      cases h
    · rw [fbm_char emb fk q c st hn hq] at h
      cases hbi : (searchLoop emb fk ((c : ℚ)/100) (candidates (pyStrip q))
          ⟨none, -1, none⟩ st).1.best_idx with
      | none =>
        rw [hbi] at h
        cases h
      | some i =>
        rw [hbi] at h
        dsimp only at h
        split at h
        · cases h
        · refine ⟨i, ?_, (Option.some.inj h).symm⟩
          exact searchLoop_idx_bound emb fk ((c : ℚ)/100)
            (candidates (pyStrip q)) ⟨none, -1, none⟩ st hwf
            (fun j hj => Option.noConfusion hj) i hbi

/-- Witness for C9 on the one-entry manager aliased "A" to "B". -/
theorem find_best_match_result_in_alias_image_witness :
    ∃ i, i < stW.skin_names.length ∧
      "B" = dictGet stW.alias_to_canonical (stW.skin_names.getD i "")
        (stW.skin_names.getD i "") := by
  have hwf : WellFormed stW := by
    refine ⟨fun M hM => ?_, fun M hM => ?_⟩
    · cases hM
      rfl
    · cases hM
  have hfind : (find_best_match embOne false "A" 50 stW).1 = some "B" := by
    norm_num +decide [find_best_match, searchLoop, vector_search, vs_prepare, ensure_embeddings, cacheAccept,
      build_vector_index, npSearch, faissSearch, scored, sortDesc, insertDesc,
      topK, selectMax, dotQ, candidates, pyLower, pyStrip, dictGet,
      embOne, embNeg, embSplit, stW, stTwo, List.range_succ,
      Prod.mk.injEq, ManagerState.mk.injEq, LoopAcc.mk.injEq]
  exact find_best_match_result_in_alias_image embOne false "A" 50 stW "B"
    hwf hfind

/-- Counterexample to claim C4 as stated: with cutoff 0 the function is
claimed to always return a match holding the globally top-scoring candidate.
First run: a non-empty catalog and non-empty query where every similarity is
negative, so cutoff 0 returns no-match.  Second run: the lowercased variant
scores 1/2 on row 0 and triggers the early exit, although the skipped
original variant would have scored 1 on row 1, so the returned name "A" is
not the canonical name "B" of the globally top-scoring candidate. -/
theorem cutoff_zero_not_always_match :
    (stW.skin_names ≠ [] ∧ pyStrip "b" ≠ "" ∧
      (find_best_match embNeg false "b" 0 stW).1 = none) ∧
    ((find_best_match embSplit false "Ab" 0 stTwo).1 = some "A" ∧
      candidates (pyStrip "Ab") = ["ab", "Ab"] ∧
      (vector_search embSplit false "ab" 3 stTwo).1.head? = some (0, 1/2) ∧
      (vector_search embSplit false "Ab" 3 stTwo).1.head? = some (1, 1) ∧
      ((1 : ℚ)/2 < 1) ∧
      dictGet stTwo.alias_to_canonical (stTwo.skin_names.getD 1 "")
        (stTwo.skin_names.getD 1 "") = "B" ∧
      some "A" ≠ some "B") := by
  refine ⟨⟨by decide, by decide, ?_⟩, ?_, ?_, ?_, ?_, by norm_num, by decide,
    by decide⟩
  · norm_num +decide [find_best_match, searchLoop, vector_search, vs_prepare, ensure_embeddings, cacheAccept,
      build_vector_index, npSearch, faissSearch, scored, sortDesc, insertDesc,
      topK, selectMax, dotQ, candidates, pyLower, pyStrip, dictGet,
      embOne, embNeg, embSplit, stW, stTwo, List.range_succ,
      Prod.mk.injEq, ManagerState.mk.injEq, LoopAcc.mk.injEq]
  · norm_num +decide [find_best_match, searchLoop, vector_search, vs_prepare, ensure_embeddings, cacheAccept,
      build_vector_index, npSearch, faissSearch, scored, sortDesc, insertDesc,
      topK, selectMax, dotQ, candidates, pyLower, pyStrip, dictGet,
      embOne, embNeg, embSplit, stW, stTwo, List.range_succ,
      Prod.mk.injEq, ManagerState.mk.injEq, LoopAcc.mk.injEq]
  · decide
  · norm_num +decide [searchLoop, vector_search, vs_prepare, ensure_embeddings, cacheAccept,
      build_vector_index, npSearch, faissSearch, scored, sortDesc, insertDesc,
      topK, selectMax, dotQ, candidates, pyLower, pyStrip, dictGet,
      embOne, embNeg, embSplit, stW, stTwo, List.range_succ,
      Prod.mk.injEq, ManagerState.mk.injEq, LoopAcc.mk.injEq]
  · norm_num +decide [searchLoop, vector_search, vs_prepare, ensure_embeddings, cacheAccept,
      build_vector_index, npSearch, faissSearch, scored, sortDesc, insertDesc,
      topK, selectMax, dotQ, candidates, pyLower, pyStrip, dictGet,
      embOne, embNeg, embSplit, stW, stTwo, List.range_succ,
      Prod.mk.injEq, ManagerState.mk.injEq, LoopAcc.mk.injEq]

/-- Claim C4 amended: with cutoff 0 on a non-empty catalog and non-empty
query, the result is the alias-map resolution of the variant-loop best
candidate when its score is at least 0, and no-match when no candidate was
found or the best score is negative (cosine scores may be negative, so a
match is not guaranteed; because of the early exit the best candidate is the
best among the variants actually searched, not necessarily the globally
highest-scoring one). -/
theorem cutoff_zero_characterization (emb : String → List ℚ) (fk : Bool)
    (q : String) (st : ManagerState)
    (hn : st.skin_names ≠ []) (hq : pyStrip q ≠ "") :
    (find_best_match emb fk q 0 st).1 =
      match (searchLoop emb fk 0 (candidates (pyStrip q))
          ⟨none, -1, none⟩ st).1.best_idx with
      | none => none
      | some i =>
        if (searchLoop emb fk 0 (candidates (pyStrip q))
            ⟨none, -1, none⟩ st).1.best_score < 0 then none
        else some (dictGet st.alias_to_canonical (st.skin_names.getD i "")
          (st.skin_names.getD i "")) := by
  have h := fbm_char emb fk q 0 st hn hq
  have h0 : (((0 : ℤ) : ℚ)/100) = 0 := by norm_num
  rw [h0] at h
  exact h

/-- Witness for the amended C4: on the aliased one-entry manager, cutoff 0
returns the resolution "B" of the loop best candidate "A". -/
theorem cutoff_zero_characterization_witness :
    (find_best_match embOne false "A" 0 stW).1 = some "B" := by
  rw [cutoff_zero_characterization embOne false "A" stW (by decide)
    (by decide)]
  norm_num +decide [searchLoop, vector_search, vs_prepare, ensure_embeddings, cacheAccept,
      build_vector_index, npSearch, faissSearch, scored, sortDesc, insertDesc,
      topK, selectMax, dotQ, candidates, pyLower, pyStrip, dictGet,
      embOne, embNeg, embSplit, stW, stTwo, List.range_succ,
      Prod.mk.injEq, ManagerState.mk.injEq, LoopAcc.mk.injEq]

end Buuff
